import Mathlib

/-!
Shallow embedding of the scanning core of `foae/pihole-youtube-block` (main.go).

The program scans pi-hole log files, extracts hostnames matching the regular
expression `rgx = r([0-9])---sn-(.*?)\.googlevideo\.com` (Go `regexp`,
leftmost, non-overlapping, with a lazy middle that cannot cross a newline),
aggregates them into a mutex-guarded map `DomainMap` (domain -> occurrence
count), and renders the distinct keys as a space-separated string.

Machine strings are modelled as `String` / `List Char`; the Go map inside
`DomainMap` is modelled as an association list (Go map iteration order is
unspecified; the model fixes first-insertion order, which is one admissible
order).  The per-file read loop of `processFile` is modelled over the stream
of `bufio.Reader.ReadLine` outcomes.
-/

/-! ### The pattern `rgx` from main.go line 20 -/

/-- The characters of the literal separator `---sn-` inside `rgx`. -/
def sepChars : List Char := ['-', '-', '-', 's', 'n', '-']

/-- The characters of the literal suffix `.googlevideo.com` inside `rgx`. -/
def suffixChars : List Char :=
  ['.', 'g', 'o', 'o', 'g', 'l', 'e', 'v', 'i', 'd', 'e', 'o', '.', 'c', 'o', 'm']

/-- The `(.*?)\.googlevideo\.com` tail of `rgx`: lazily scan for the earliest
occurrence of `suffixChars`; RE2's `.` does not match a newline, so the scan
fails upon reaching `'\n'` (or the end of the line).  Returns the middle
characters consumed and the remainder after the suffix. -/
def findSuffix : List Char → Option (List Char × List Char)
  | [] => none
  | c :: cs =>
    if suffixChars.isPrefixOf (c :: cs) then
      some ([], (c :: cs).drop suffixChars.length)
    else if c = '\n' then none
    else
      match findSuffix cs with
      | some (mid, rest) => some (c :: mid, rest)
      | none => none

/-- Matching `rgx` at the start of the input: literal `r`, exactly one digit
(`[0-9]`), the literal `---sn-`, then the lazy middle and `.googlevideo.com`.
Returns the matched text and the remainder after it. -/
def headMatch : List Char → Option (List Char × List Char)
  | [] => none
  | [_] => none
  | c :: d :: rest =>
    if c = 'r' ∧ d.isDigit = true ∧ sepChars.isPrefixOf rest = true then
      match findSuffix (rest.drop sepChars.length) with
      | some (mid, after) =>
        some (c :: d :: (sepChars ++ mid ++ suffixChars), after)
      | none => none
    else none

/-- Successive leftmost non-overlapping matches (Go `Regexp.FindAll` with
`n = -1`): try the pattern at every position left to right and resume after
each match.  `fuel` bounds the recursion; any `fuel ≥` input length is exact. -/
def findAllAux : Nat → List Char → List (List Char)
  | 0, _ => []
  | _ + 1, [] => []
  | fuel + 1, c :: cs =>
    match headMatch (c :: cs) with
    | some (m, rest) => m :: findAllAux fuel rest
    | none => findAllAux fuel cs

/-- The extraction `rgx.FindAll(line, -1)` from `processFile` (main.go 240). -/
def rgxFindAll (s : String) : List String :=
  (findAllAux s.toList.length s.toList).map fun l => String.mk l

/-- The language of `rgx`: `r`, exactly one digit, `---sn-`, a newline-free
middle, `.googlevideo.com`. -/
def specOcc (m : List Char) : Prop :=
  ∃ d mid, d.isDigit = true ∧ '\n' ∉ mid ∧
    m = 'r' :: d :: (sepChars ++ mid ++ suffixChars)

/-- String-level version of `specOcc`. -/
def specOccStr (s : String) : Prop := specOcc s.toList

/-- The grammar asserted by the specification sentence under scrutiny:
`r`, ONE OR MORE digits, the separator `---sn-`, arbitrary (newline-free)
content, `.googlevideo.com`. -/
def claimOcc (m : List Char) : Prop :=
  ∃ ds mid, ds ≠ [] ∧ (∀ c ∈ ds, c.isDigit = true) ∧ '\n' ∉ mid ∧
    m = 'r' :: (ds ++ sepChars ++ mid ++ suffixChars)

/-- No match of `rgx` starts at the first position of `s`. -/
def noMatchHead (s : List Char) : Prop :=
  ¬ ∃ m rest, s = m ++ rest ∧ specOcc m

/-- `OccSeq s ms` states that the strings `ms` occur in `s` disjointly and in
left-to-right order, each belonging to the language of `rgx`, that no match
start was skipped over before or between them, and that no match starts in
the part of `s` after the last of them. -/
inductive OccSeq : List Char → List (List Char) → Prop
  | nil (s : List Char) :
      (∀ p q, s = p ++ q → noMatchHead q) → OccSeq s []
  | cons (pre m rest : List Char) (ms : List (List Char)) :
      specOcc m →
      (∀ p q, pre = p ++ q → q ≠ [] → noMatchHead (q ++ m ++ rest)) →
      OccSeq rest ms →
      OccSeq (pre ++ m ++ rest) (m :: ms)

/-! ### `DomainMap` (main.go 30-35, 146-185)

The Go map `m map[string]int` is modelled as an association list without a
fixed key-order guarantee being claimed; `insertD` is the content of
`dm.m[s]++` (read-or-zero, then store the successor), which updates the
key in place or appends a fresh key at count 1. -/

/-- The mutation performed by `DomainMap.Insert` (main.go 147-151) on the
underlying map value: `dm.m[s]++`. -/
def insertD : List (String × Nat) → String → List (String × Nat)
  | [], s => [(s, 1)]
  | (k, v) :: rest, s =>
    if k = s then (k, v + 1) :: rest else (k, v) :: insertD rest s

/-- Go map indexing with the zero default: `dm.m[d]` as read in `dm.m[d]++`. -/
def countOf : List (String × Nat) → String → Nat
  | [], _ => 0
  | (k, v) :: rest, d => if k = d then v else countOf rest d

/-- The key set of the map, in model order. -/
def keysOf (m : List (String × Nat)) : List String := m.map Prod.fst

/-- The body of `DomainMap.DomainsToString` (main.go 167-177): a
`strings.Builder` receiving `domain ++ " "` for every key of the map. -/
def DomainsToString (m : List (String × Nat)) : String :=
  m.foldl (fun acc p => acc ++ p.1 ++ " ") ""

/-- Reference rendering: every key followed by one space, concatenated. -/
def concatKeys : List String → String
  | [] => ""
  | k :: ks => k ++ " " ++ concatKeys ks

/-! A one-cell-per-address heap, to state what `DomainMap.Domains`
(main.go 159-164) returns: Go returns the map header `dm.m` itself — a
reference into the heap — not a copy of the entries. -/

/-- Heap of Go map values, addressed by `Nat`. -/
def Store : Type := Nat → List (String × Nat)

/-- `DomainMap` (main.go 32-35): it holds a reference `m` to the underlying
Go map (the mutex `l` guards the critical sections and has no effect on the
values computed, so it is not part of the state model). -/
structure DomainMap where
  m : Nat

/-- Dereference a map reference in the heap. -/
def readMap (st : Store) (r : Nat) : List (String × Nat) := st r

/-- Overwrite the map value at a reference in the heap. -/
def writeMap (st : Store) (r : Nat) (v : List (String × Nat)) : Store :=
  fun q => if q = r then v else st q

/-- `DomainMap.Insert` (main.go 147-151) as a heap transformer:
`dm.m[s]++` under the lock. -/
def DomainMap.Insert (st : Store) (dm : DomainMap) (s : String) : Store :=
  writeMap st dm.m (insertD (readMap st dm.m) s)

/-- `DomainMap.Domains` (main.go 159-164): `return dm.m` — the reference to
the underlying map is handed out unchanged; no entries are copied. -/
def DomainMap.Domains (dm : DomainMap) : Nat := dm.m

/-! ### `processFile` (main.go 203-251)

The loop consumes the stream of `bufio.Reader.ReadLine` results.  One result
is end-of-input (`io.EOF`), a non-EOF read error, an oversized-line signal
(`isPrefix = true`), or a complete line. -/

/-- One outcome of `r.ReadLine()` in the `processFile` loop.  `tooLong` is a
fragment returned with `isPrefix = true` (its bytes are not looked at by the
code, which only logs, so the model does not carry them); `line` is a result
returned with `isPrefix = false` — a complete line, or the final fragment of
an oversized line. -/
inductive ReadResult
  | eof
  | err
  | tooLong
  | line (s : String)
deriving DecidableEq

/-- The `LineLoop` of `processFile` (main.go 226-246), returning the domains
inserted into the registry, in insertion order: `io.EOF` breaks the loop; a
non-EOF error logs and `continue`s (the loop keeps reading!); an oversized
line logs and `continue`s; otherwise every `rgx` match of the line is
inserted. -/
def processFileLoop : List ReadResult → List String
  | [] => []
  | ReadResult.eof :: _ => []
  | ReadResult.err :: rest => processFileLoop rest
  | ReadResult.tooLong :: rest => processFileLoop rest
  | ReadResult.line l :: rest => rgxFindAll l ++ processFileLoop rest

/-- How `bufio.Reader.ReadLine` (buffer size `maxLen`, 4096 in the program)
delivers one logical line: as long as more than `maxLen` bytes of the line
remain, a full-buffer chunk is returned with `isPrefix = true` (the `tooLong`
outcome), and the remaining bytes are returned by future calls; the final
chunk — at most `maxLen` bytes — is returned with `isPrefix = false`, i.e. as
an ordinary `line` outcome.  The fuel is exact for `maxLen ≥ 1` (each step
drops `maxLen ≥ 1` characters). -/
def readLineFragmentsAux : Nat → Nat → List Char → List ReadResult
  | 0, _, l => [ReadResult.line (String.mk l)]
  | fuel + 1, maxLen, l =>
    if l.length ≤ maxLen then [ReadResult.line (String.mk l)]
    else ReadResult.tooLong :: readLineFragmentsAux fuel maxLen (l.drop maxLen)

/-- The `ReadLine` outcome stream produced by one logical line under the
maximum line length `maxLen`. -/
def readLineFragments (maxLen : Nat) (l : List Char) : List ReadResult :=
  readLineFragmentsAux l.length maxLen l

/-- A file handed to `processFile`: its open may fail (main.go 206-209), the
gzip reader construction may fail (main.go 213-218), or it yields a stream of
read results. -/
inductive FileInput
  | openFail
  | gzipFail
  | content (reads : List ReadResult)

/-- The registry contribution of one `processFile` call: an open or gzip
failure returns before the loop and contributes nothing. -/
def processFileModel : FileInput → List String
  | FileInput.openFail => []
  | FileInput.gzipFail => []
  | FileInput.content rs => processFileLoop rs

/-- Whether a read result is the non-EOF error outcome. -/
def isErrR : ReadResult → Bool
  | ReadResult.err => true
  | _ => false

/-- Replace every failure by a successful empty outcome: failed opens and
failed gzip constructions become empty files, and error read results are
dropped from content streams. -/
def neutralizeFailure : FileInput → FileInput
  | FileInput.openFail => FileInput.content []
  | FileInput.gzipFail => FileInput.content []
  | FileInput.content rs => FileInput.content (rs.filter fun r => !isErrR r)

/-- What `main` derives from a finished scan (main.go 77-82, 102): the number
of distinct domains and the space-separated blocklist string.  Elapsed
wall-clock time is real time and is outside the value model. -/
structure ScanResultM where
  totalCollectedDomains : Nat
  blocklist : String
deriving DecidableEq

/-- The whole scan over a list of files: every file contributes its extracted
domains to one shared registry (C5 shows the interleaving does not matter, so
the model inserts them in file order), and `main` reads off the key count and
the blocklist string. -/
def scanModel (fs : List FileInput) : ScanResultM :=
  { totalCollectedDomains :=
      (keysOf (List.foldl insertD [] (fs.map processFileModel).flatten)).length
    blocklist :=
      DomainsToString (List.foldl insertD [] (fs.map processFileModel).flatten) }

/-! ### File selection in `main` (main.go 22-28, 53-61) -/

/-- One result of `ioutil.ReadDir`: a name and an is-directory flag. -/
structure DirEntry where
  name : String
  isDir : Bool
deriving DecidableEq

/-- `Config` (main.go 22-28).  The second field is the source's
`LogFileNamePrefix` (JSON key `LOG_FILE_NAME_PREFIX`), renamed here to
`LogFileNameFilter`. -/
structure Config where
  LogsDirectory : String
  LogFileNameFilter : String
  OutputFileName : String
  PopConfirmationDialogue : Bool

/-- The Go test `strings.HasPrefix s p`. -/
def strStarts (s p : String) : Bool := p.toList.isPrefixOf s.toList

/-- The filter loop of `main` (main.go 53-61): keep entries that are not
directories and whose name starts with the hard-coded literal
`"pihole.log"`.  The configuration record is in scope there but its
file-name filter field is never consulted. -/
def filesOfInterest (files : List DirEntry) : List String :=
  (files.filter fun f => !f.isDir && strStarts f.name "pihole.log").map DirEntry.name

/-- Modelled from the spec ("select entries whose name begins with a
configured prefix and which are not directories"): the selection the
specification describes, driven by the filter field carried in the
configuration record. -/
def selectBySpec (cfg : Config) (files : List DirEntry) : List String :=
  (files.filter fun f => !f.isDir && strStarts f.name cfg.LogFileNameFilter).map
    DirEntry.name

/-! ### Lemmas about the pattern matcher -/

theorem isPre_append (l t : List Char) : l.isPrefixOf (l ++ t) = true := by
  induction l with
  | nil => simp [List.isPrefixOf]
  | cons a as ih => simp [List.isPrefixOf, ih]

theorem isPre_exists {l s : List Char} (h : l.isPrefixOf s = true) :
    ∃ t, s = l ++ t := by
  induction l generalizing s with
  | nil => exact ⟨s, rfl⟩
  | cons a as ih =>
    cases s with
    | nil => simp [List.isPrefixOf] at h
    | cons b bs =>
      simp only [List.isPrefixOf, Bool.and_eq_true, beq_iff_eq] at h
      obtain ⟨rfl, h2⟩ := h
      obtain ⟨t, rfl⟩ := ih h2
      exact ⟨t, rfl⟩

theorem findSuffix_cons (c : Char) (cs : List Char) :
    findSuffix (c :: cs) =
      if suffixChars.isPrefixOf (c :: cs) then
        some ([], (c :: cs).drop suffixChars.length)
      else if c = '\n' then none
      else
        match findSuffix cs with
        | some (mid, rest) => some (c :: mid, rest)
        | none => none := rfl

theorem findSuffix_sound : ∀ {s mid rest : List Char},
    findSuffix s = some (mid, rest) →
    s = mid ++ suffixChars ++ rest ∧ '\n' ∉ mid := by
  intro s
  induction s with
  | nil => intro mid rest h; simp [findSuffix] at h
  | cons c cs ih =>
    intro mid rest h
    rw [findSuffix_cons] at h
    by_cases hp : suffixChars.isPrefixOf (c :: cs) = true
    · rw [if_pos hp] at h
      obtain ⟨t, ht⟩ := isPre_exists hp
      simp only [Option.some.injEq, Prod.mk.injEq] at h
      obtain ⟨hmid, hrest⟩ := h
      subst hmid
      have hdrop : (c :: cs).drop suffixChars.length = t := by
        rw [ht]; exact List.drop_left _ _
      rw [hdrop] at hrest
      subst hrest
      exact ⟨by simpa using ht, by simp⟩
    · rw [if_neg hp] at h
      by_cases hc : c = '\n'
      · rw [if_pos hc] at h; exact absurd h (by simp)
      · rw [if_neg hc] at h
        cases hfs : findSuffix cs with
        | none => rw [hfs] at h; exact absurd h (by simp)
        | some mr =>
          obtain ⟨mid2, rest2⟩ := mr
          rw [hfs] at h
          have h2 : (some (c :: mid2, rest2) : Option (List Char × List Char))
              = some (mid, rest) := h
          simp only [Option.some.injEq, Prod.mk.injEq] at h2
          obtain ⟨hmid, hrest⟩ := h2
          subst hmid; subst hrest
          obtain ⟨heq, hnl⟩ := ih hfs
          constructor
          · simp [heq]
          · intro hmem
            cases List.mem_cons.mp hmem with
            | inl he => exact hc he.symm
            | inr hm => exact hnl hm

theorem findSuffix_self (t : List Char) : findSuffix (suffixChars ++ t) = some ([], t) := by
  have h1 : suffixChars ++ t
      = '.' :: (['g', 'o', 'o', 'g', 'l', 'e', 'v', 'i', 'd', 'e', 'o', '.', 'c', 'o', 'm'] ++ t) := rfl
  have hp : suffixChars.isPrefixOf (suffixChars ++ t) = true := isPre_append _ _
  rw [h1, findSuffix_cons, if_pos (h1 ▸ hp)]
  rfl

theorem findSuffix_complete : ∀ (mid rest : List Char), '\n' ∉ mid →
    ∃ mr, findSuffix (mid ++ (suffixChars ++ rest)) = some mr := by
  intro mid
  induction mid with
  | nil => intro rest _; exact ⟨([], rest), findSuffix_self rest⟩
  | cons c cs ih =>
    intro rest h
    rw [List.cons_append, findSuffix_cons]
    by_cases hp : suffixChars.isPrefixOf (c :: (cs ++ (suffixChars ++ rest))) = true
    · rw [if_pos hp]; exact ⟨_, rfl⟩
    · rw [if_neg hp]
      have hc : ¬ c = '\n' := by
        intro e; subst e; exact h (List.mem_cons_self _ _)
      rw [if_neg hc]
      obtain ⟨⟨mid2, rest2⟩, hm⟩ := ih rest (fun hm2 => h (List.mem_cons_of_mem _ hm2))
      rw [hm]
      exact ⟨_, rfl⟩

theorem headMatch_cons (c d : Char) (rest : List Char) :
    headMatch (c :: d :: rest) =
      if c = 'r' ∧ d.isDigit = true ∧ sepChars.isPrefixOf rest = true then
        match findSuffix (rest.drop sepChars.length) with
        | some (mid, after) =>
          some (c :: d :: (sepChars ++ mid ++ suffixChars), after)
        | none => none
      else none := rfl

theorem headMatch_sound : ∀ {s m rest : List Char}, headMatch s = some (m, rest) →
    s = m ++ rest ∧ specOcc m := by
  intro s m rest h
  match s with
  | [] => simp [headMatch] at h
  | [c] => simp [headMatch] at h
  | c :: d :: t =>
    rw [headMatch_cons] at h
    by_cases hc : c = 'r' ∧ d.isDigit = true ∧ sepChars.isPrefixOf t = true
    · rw [if_pos hc] at h
      obtain ⟨hr, hd, hsp⟩ := hc
      obtain ⟨tt, htt⟩ := isPre_exists hsp
      cases hfs : findSuffix (t.drop sepChars.length) with
      | none => rw [hfs] at h; exact absurd h (by simp)
      | some mr =>
        obtain ⟨mid, after⟩ := mr
        rw [hfs] at h
        have h2 : (some (c :: d :: (sepChars ++ mid ++ suffixChars), after)
            : Option (List Char × List Char)) = some (m, rest) := h
        simp only [Option.some.injEq, Prod.mk.injEq] at h2
        obtain ⟨hm, hrest⟩ := h2
        subst hm; subst hrest; subst hr
        have hdrop : t.drop sepChars.length = tt := by
          rw [htt]; exact List.drop_left _ _
        rw [hdrop] at hfs
        obtain ⟨heq, hnl⟩ := findSuffix_sound hfs
        constructor
        · rw [htt, heq]; simp [List.append_assoc]
        · exact ⟨d, mid, hd, hnl, rfl⟩
    · rw [if_neg hc] at h; exact absurd h (by simp)

theorem headMatch_complete {m : List Char} (h : specOcc m) (rest : List Char) :
    ∃ mr, headMatch (m ++ rest) = some mr := by
  obtain ⟨d, mid, hd, hnl, rfl⟩ := h
  rw [List.cons_append, List.cons_append, headMatch_cons]
  have hassoc : (sepChars ++ mid ++ suffixChars) ++ rest
      = sepChars ++ (mid ++ (suffixChars ++ rest)) := by
    simp [List.append_assoc]
  have hc : ('r' : Char) = 'r' ∧ d.isDigit = true ∧
      sepChars.isPrefixOf ((sepChars ++ mid ++ suffixChars) ++ rest) = true := by
    refine ⟨rfl, hd, ?_⟩
    rw [hassoc]; exact isPre_append _ _
  rw [if_pos hc]
  have hdrop : ((sepChars ++ mid ++ suffixChars) ++ rest).drop sepChars.length
      = mid ++ (suffixChars ++ rest) := by
    rw [hassoc]; exact List.drop_left _ _
  rw [hdrop]
  obtain ⟨⟨mid2, rest2⟩, hm⟩ := findSuffix_complete mid rest hnl
  rw [hm]
  exact ⟨_, rfl⟩

theorem noMatchHead_of_none {s : List Char} (h : headMatch s = none) :
    noMatchHead s := by
  rintro ⟨m, rest, rfl, hocc⟩
  obtain ⟨mr, hm⟩ := headMatch_complete hocc rest
  rw [h] at hm
  exact Option.noConfusion hm

theorem headMatch_rest_length {s m rest : List Char}
    (h : headMatch s = some (m, rest)) : rest.length < s.length := by
  obtain ⟨heq, hocc⟩ := headMatch_sound h
  obtain ⟨d, mid, _, _, hm⟩ := hocc
  rw [heq, List.length_append]
  have hpos : 0 < m.length := by rw [hm]; simp
  omega

theorem noMatchHead_nil : noMatchHead [] := by
  rintro ⟨m, rest, hEq, d, mid, _, _, hm⟩
  rw [hm] at hEq
  simp at hEq

theorem occSeq_nil : OccSeq [] [] := by
  refine OccSeq.nil [] ?_
  intro p q hpq
  obtain ⟨_, rfl⟩ := List.append_eq_nil.mp hpq.symm
  exact noMatchHead_nil

theorem occSeq_skip {c : Char} {s : List Char} {ms : List (List Char)}
    (hno : noMatchHead (c :: s)) (h : OccSeq s ms) : OccSeq (c :: s) ms := by
  cases h with
  | nil s2 hs =>
    refine OccSeq.nil _ ?_
    intro p q hpq
    cases p with
    | nil =>
      simp only [List.nil_append] at hpq
      subst hpq
      exact hno
    | cons x xs =>
      rw [List.cons_append] at hpq
      injection hpq with h1 h2
      exact hs xs q h2
  | cons pre m rest ms2 hm hpre hrest =>
    have hre : c :: (pre ++ m ++ rest) = (c :: pre) ++ m ++ rest := by simp
    rw [hre]
    refine OccSeq.cons _ _ _ _ hm ?_ hrest
    intro p q hpq hqne
    cases p with
    | nil =>
      simp only [List.nil_append] at hpq
      subst hpq
      have hre2 : (c :: pre) ++ m ++ rest = c :: (pre ++ m ++ rest) := by simp
      rw [hre2]
      exact hno
    | cons x xs =>
      rw [List.cons_append] at hpq
      injection hpq with h1 h2
      exact hpre xs q h2 hqne

theorem findAllAux_succ_cons (fuel : Nat) (c : Char) (cs : List Char) :
    findAllAux (fuel + 1) (c :: cs) =
      match headMatch (c :: cs) with
      | some (m, rest) => m :: findAllAux fuel rest
      | none => findAllAux fuel cs := rfl

theorem findAllAux_occSeq : ∀ (fuel : Nat) (s : List Char), s.length ≤ fuel →
    OccSeq s (findAllAux fuel s) := by
  intro fuel
  induction fuel with
  | zero =>
    intro s hs
    have hnil : s = [] := List.eq_nil_of_length_eq_zero (Nat.le_zero.mp hs)
    subst hnil
    exact occSeq_nil
  | succ fuel ih =>
    intro s hs
    cases s with
    | nil => exact occSeq_nil
    | cons c cs =>
      rw [findAllAux_succ_cons]
      cases hh : headMatch (c :: cs) with
      | none =>
        have hlen : cs.length ≤ fuel := by
          simp only [List.length_cons] at hs; omega
        exact occSeq_skip (noMatchHead_of_none hh) (ih cs hlen)
      | some mr =>
        obtain ⟨m, rest⟩ := mr
        have hlen : rest.length ≤ fuel := by
          have := headMatch_rest_length hh
          simp only [List.length_cons] at this hs
          omega
        have hrec := ih rest hlen
        obtain ⟨heq, hocc⟩ := headMatch_sound hh
        have hre : c :: cs = [] ++ m ++ rest := by simpa using heq
        rw [hre]
        refine OccSeq.cons [] m rest _ hocc ?_ hrec
        intro p q hpq hqne
        obtain ⟨_, rfl⟩ := List.append_eq_nil.mp hpq.symm
        exact absurd rfl hqne

theorem occSeq_nil_inv {s : List Char} (h : OccSeq s []) :
    ∀ p q, s = p ++ q → noMatchHead q := by
  cases h with
  | nil s2 hs => exact hs

theorem specOcc_of_mem_findAllAux : ∀ (fuel : Nat) (s l : List Char),
    l ∈ findAllAux fuel s → specOcc l := by
  intro fuel
  induction fuel with
  | zero => intro s l h; simp [findAllAux] at h
  | succ fuel ih =>
    intro s l h
    cases s with
    | nil => simp [findAllAux] at h
    | cons c cs =>
      rw [findAllAux_succ_cons] at h
      cases hh : headMatch (c :: cs) with
      | none =>
        rw [hh] at h
        exact ih cs l h
      | some mr =>
        obtain ⟨m, rest⟩ := mr
        rw [hh] at h
        have h2 : l ∈ m :: findAllAux fuel rest := h
        cases List.mem_cons.mp h2 with
        | inl he => subst he; exact (headMatch_sound hh).2
        | inr hmem => exact ih rest l hmem

theorem toList_mk (l : List Char) : (String.mk l).toList = l := rfl

theorem mapmk_toList : ∀ (L : List (List Char)),
    (L.map String.mk).map String.toList = L := by
  intro L
  induction L with
  | nil => rfl
  | cons a as ih =>
    simp only [List.map_cons, List.cons.injEq]
    exact ⟨rfl, ih⟩

theorem toList_append (a b : String) :
    (a ++ b).toList = a.toList ++ b.toList := by
  cases a; cases b; rfl

/-! ### Lemmas about the registry model -/

theorem insertD_cons (k : String) (v : Nat) (rest : List (String × Nat)) (s : String) :
    insertD ((k, v) :: rest) s =
      if k = s then (k, v + 1) :: rest else (k, v) :: insertD rest s := rfl

theorem countOf_cons (k : String) (v : Nat) (rest : List (String × Nat)) (d : String) :
    countOf ((k, v) :: rest) d = if k = d then v else countOf rest d := rfl

theorem keysOf_cons (k : String) (v : Nat) (rest : List (String × Nat)) :
    keysOf ((k, v) :: rest) = k :: keysOf rest := rfl

theorem countOf_insertD (m : List (String × Nat)) (a d : String) :
    countOf (insertD m a) d = countOf m d + (if a = d then 1 else 0) := by
  induction m with
  | nil =>
    by_cases h : a = d
    · subst h; simp [insertD, countOf]
    · simp [insertD, countOf, h]
  | cons p rest ih =>
    obtain ⟨k, v⟩ := p
    rw [insertD_cons]
    by_cases hk : k = a
    · rw [if_pos hk]
      subst hk
      rw [countOf_cons, countOf_cons]
      by_cases hd : k = d
      · rw [if_pos hd, if_pos hd, if_pos hd]
      · rw [if_neg hd, if_neg hd, if_neg hd]
        omega
    · rw [if_neg hk, countOf_cons, countOf_cons]
      by_cases hd : k = d
      · rw [if_pos hd, if_pos hd]
        have hnd : ¬ a = d := fun e => hk (by rw [e, hd])
        rw [if_neg hnd]
        omega
      · rw [if_neg hd, if_neg hd, ih]

theorem mem_keysOf_insertD (m : List (String × Nat)) (a x : String) :
    x ∈ keysOf (insertD m a) ↔ x ∈ keysOf m ∨ x = a := by
  induction m with
  | nil => simp [insertD, keysOf]
  | cons p rest ih =>
    obtain ⟨k, v⟩ := p
    rw [insertD_cons]
    by_cases hk : k = a
    · rw [if_pos hk]
      subst hk
      simp only [keysOf_cons, List.mem_cons]
      tauto
    · rw [if_neg hk]
      simp only [keysOf_cons, List.mem_cons, ih]
      tauto

theorem countOf_zero_of_not_mem : ∀ {m : List (String × Nat)} {d : String},
    d ∉ keysOf m → countOf m d = 0 := by
  intro m
  induction m with
  | nil => intro d _; rfl
  | cons p rest ih =>
    intro d h
    obtain ⟨k, v⟩ := p
    rw [keysOf_cons] at h
    rw [countOf_cons]
    have hk : ¬ k = d := by
      intro e; subst e; exact h (List.mem_cons_self _ _)
    rw [if_neg hk]
    exact ih fun hm => h (List.mem_cons_of_mem _ hm)

theorem countOf_foldl : ∀ (l : List String) (m : List (String × Nat)) (d : String),
    countOf (List.foldl insertD m l) d = countOf m d + l.count d := by
  intro l
  induction l with
  | nil => intro m d; simp
  | cons a as ih =>
    intro m d
    rw [List.foldl_cons, ih, countOf_insertD, List.count_cons]
    by_cases h : a = d
    · subst h; simp; omega
    · have hbd : ¬ d = a := fun e => h e.symm
      simp [h, hbd]

theorem mem_keysOf_foldl : ∀ (l : List String) (m : List (String × Nat)) (x : String),
    x ∈ keysOf (List.foldl insertD m l) ↔ x ∈ keysOf m ∨ x ∈ l := by
  intro l
  induction l with
  | nil => intro m x; simp
  | cons a as ih =>
    intro m x
    rw [List.foldl_cons, ih, mem_keysOf_insertD]
    simp only [List.mem_cons]
    tauto

theorem countOf_foldl_mono : ∀ (l : List String) (m : List (String × Nat)) (d : String),
    countOf m d ≤ countOf (List.foldl insertD m l) d := by
  intro l m d
  rw [countOf_foldl]
  omega

theorem keysOf_nodup_insertD : ∀ {m : List (String × Nat)} (a : String),
    (keysOf m).Nodup → (keysOf (insertD m a)).Nodup := by
  intro m
  induction m with
  | nil => intro a _; simp [insertD, keysOf]
  | cons p rest ih =>
    intro a h
    obtain ⟨k, v⟩ := p
    rw [keysOf_cons, List.nodup_cons] at h
    obtain ⟨hmem, hnd⟩ := h
    rw [insertD_cons]
    by_cases hk : k = a
    · rw [if_pos hk, keysOf_cons, List.nodup_cons]
      exact ⟨hmem, hnd⟩
    · rw [if_neg hk, keysOf_cons, List.nodup_cons]
      refine ⟨?_, ih a hnd⟩
      intro hm
      cases (mem_keysOf_insertD rest a k).mp hm with
      | inl h1 => exact hmem h1
      | inr h2 => exact hk h2

theorem keysOf_foldl_nodup : ∀ (l : List String) (m : List (String × Nat)),
    (keysOf m).Nodup → (keysOf (List.foldl insertD m l)).Nodup := by
  intro l
  induction l with
  | nil => intro m h; exact h
  | cons a as ih =>
    intro m h
    exact ih _ (keysOf_nodup_insertD a h)

theorem DomainsToString_aux : ∀ (m : List (String × Nat)) (acc : String),
    m.foldl (fun acc p => acc ++ p.1 ++ " ") acc = acc ++ concatKeys (keysOf m) := by
  intro m
  induction m with
  | nil =>
    intro acc
    show acc = acc ++ concatKeys []
    rw [concatKeys, String.append_empty]
  | cons p rest ih =>
    intro acc
    obtain ⟨k, v⟩ := p
    rw [List.foldl_cons, ih, keysOf_cons, concatKeys]
    simp only [String.append_assoc]

theorem DomainsToString_eq_concatKeys (m : List (String × Nat)) :
    DomainsToString m = concatKeys (keysOf m) := by
  rw [DomainsToString, DomainsToString_aux]
  rfl

/-! ### Lemmas about the scan model -/

theorem processFileLoop_filter : ∀ (rs : List ReadResult),
    processFileLoop (rs.filter fun r => !isErrR r) = processFileLoop rs := by
  intro rs
  induction rs with
  | nil => rfl
  | cons r rest ih =>
    cases r with
    | eof =>
      have hf : List.filter (fun r => !isErrR r) (ReadResult.eof :: rest)
          = ReadResult.eof :: List.filter (fun r => !isErrR r) rest := rfl
      rw [hf]
      rfl
    | err =>
      have hf : List.filter (fun r => !isErrR r) (ReadResult.err :: rest)
          = List.filter (fun r => !isErrR r) rest := rfl
      rw [hf]
      exact ih
    | tooLong =>
      have hf : List.filter (fun r => !isErrR r) (ReadResult.tooLong :: rest)
          = ReadResult.tooLong :: List.filter (fun r => !isErrR r) rest := rfl
      rw [hf]
      exact ih
    | line l =>
      have hf : List.filter (fun r => !isErrR r) (ReadResult.line l :: rest)
          = ReadResult.line l :: List.filter (fun r => !isErrR r) rest := rfl
      have hl : ∀ (r : List ReadResult),
          processFileLoop (ReadResult.line l :: r) = rgxFindAll l ++ processFileLoop r :=
        fun _ => rfl
      rw [hf, hl, hl, ih]

theorem processFileModel_neutralize (f : FileInput) :
    processFileModel (neutralizeFailure f) = processFileModel f := by
  cases f with
  | openFail => rfl
  | gzipFail => rfl
  | content rs => exact processFileLoop_filter rs

theorem map_processFileModel_neutralize : ∀ (fs : List FileInput),
    (fs.map neutralizeFailure).map processFileModel = fs.map processFileModel := by
  intro fs
  induction fs with
  | nil => rfl
  | cons f rest ih =>
    simp only [List.map_cons, List.cons.injEq]
    exact ⟨processFileModel_neutralize f, ih⟩

/-! ### Claim theorems -/

/-- Claim C1 (code-bug evidence): on a non-EOF read error the `processFile`
loop executes `continue` — despite logging that the file was skipped — so the
loop keeps issuing reads for that file, and matches of later successful reads
are still inserted into the registry.  Here the stream whose first read fails
(e.g. a gzip format error) still contributes a domain, refuting "stops
processing that file immediately — no further line reads or registry
insertions". -/
theorem processFile_continues_after_readError :
    processFileLoop [ReadResult.err,
      ReadResult.line "r1---sn-abc.googlevideo.com", ReadResult.eof]
      = ["r1---sn-abc.googlevideo.com"] := by decide

/-- Claim C2 (counterexample): "r12---sn-foo.googlevideo.com" is an occurrence
with two digits after the leading `r` in the grammar the claim asserts, yet
`rgx` finds no match in it; the one-digit variant is matched. -/
theorem rgx_twoDigit_occurrence_not_matched :
    claimOcc ("r12---sn-foo.googlevideo.com".toList) ∧
    rgxFindAll "r12---sn-foo.googlevideo.com" = [] ∧
    rgxFindAll "r1---sn-foo.googlevideo.com" = ["r1---sn-foo.googlevideo.com"] := by
  refine ⟨⟨['1', '2'], "foo".toList, by decide, by decide, by decide, by decide⟩,
    by decide, by decide⟩

/-- Claim C2 (amended): every match produced by the extractor has the shape
`r` + exactly one digit + `---sn-` + newline-free content +
`.googlevideo.com`, and a line containing an occurrence of that one-digit
shape always yields at least one match. -/
theorem rgx_matches_oneDigit_shape (s t pre post : String) (ht : specOccStr t) :
    (∀ m, m ∈ rgxFindAll s → specOccStr m) ∧
    rgxFindAll (pre ++ t ++ post) ≠ [] := by
  constructor
  · intro m hm
    rw [rgxFindAll] at hm
    obtain ⟨l, hl, rfl⟩ := List.mem_map.mp hm
    exact specOcc_of_mem_findAllAux _ _ _ hl
  · intro hempty
    rw [rgxFindAll] at hempty
    have h1 : findAllAux (pre ++ t ++ post).toList.length (pre ++ t ++ post).toList
        = [] := by
      exact List.map_eq_nil_iff.mp hempty
    have h2 := findAllAux_occSeq (pre ++ t ++ post).toList.length
      (pre ++ t ++ post).toList (le_refl _)
    rw [h1] at h2
    have hsplit : (pre ++ t ++ post).toList
        = pre.toList ++ (t.toList ++ post.toList) := by
      rw [toList_append, toList_append, List.append_assoc]
    exact occSeq_nil_inv h2 pre.toList (t.toList ++ post.toList) hsplit
      ⟨t.toList, post.toList, rfl, ht⟩

/-- Witness for the amended C2 theorem at a concrete line. -/
theorem rgx_matches_oneDigit_shape_applied :
    (∀ m, m ∈ rgxFindAll "a r4---sn-abc.googlevideo.com b" → specOccStr m) ∧
    rgxFindAll ("a " ++ "r4---sn-abc.googlevideo.com" ++ " b") ≠ [] :=
  rgx_matches_oneDigit_shape "a r4---sn-abc.googlevideo.com b"
    "r4---sn-abc.googlevideo.com" "a " " b"
    ⟨'4', "abc".toList, by decide, by decide, by decide⟩

/-- Claim C3: the extractor is a total function of the line (no side effects,
no error outcome), and its output is exactly the left-to-right sequence of
non-overlapping grammar occurrences: `OccSeq` states that every returned match
belongs to the language of `rgx`, that the matches occur disjointly in the
line in left-to-right order, and that no position outside them starts a match
— so a line with zero occurrences yields `[]` and a line with k of them yields
exactly those k matches. -/
theorem patternExtractor_characterization (s : String) :
    OccSeq s.toList ((rgxFindAll s).map String.toList) := by
  rw [rgxFindAll, mapmk_toList]
  exact findAllAux_occSeq _ _ (le_refl _)

/-- Claim C4: `Insert d` increments `d`'s count by one, creates `d` at count 1
when absent, leaves every other key's count unchanged, and across any further
sequence of inserts keys are never removed and counts never decrease. -/
theorem DomainMap_Insert_spec (m : List (String × Nat)) (d x : String)
    (hx : x ≠ d) (ds : List String) :
    countOf (insertD m d) d = countOf m d + 1 ∧
    countOf (insertD m d) x = countOf m x ∧
    (d ∉ keysOf m → countOf (insertD m d) d = 1) ∧
    d ∈ keysOf (insertD m d) ∧
    (∀ y, y ∈ keysOf m → y ∈ keysOf (List.foldl insertD m ds)) ∧
    (∀ y, countOf m y ≤ countOf (List.foldl insertD m ds) y) := by
  refine ⟨?_, ?_, ?_, ?_, ?_, ?_⟩
  · rw [countOf_insertD]; simp
  · rw [countOf_insertD]
    have hdx : ¬ d = x := fun e => hx e.symm
    simp [hdx]
  · intro habs
    rw [countOf_insertD, countOf_zero_of_not_mem habs]
    simp
  · rw [mem_keysOf_insertD]; exact Or.inr rfl
  · intro y hy; rw [mem_keysOf_foldl]; exact Or.inl hy
  · intro y; exact countOf_foldl_mono ds m y

/-- Witness for C4 at a concrete registry state. -/
theorem DomainMap_Insert_spec_applied :
    countOf (insertD [("a", 2)] "b") "b" = countOf [("a", 2)] "b" + 1 ∧
    countOf (insertD [("a", 2)] "b") "a" = countOf [("a", 2)] "a" ∧
    ("b" ∉ keysOf [("a", 2)] → countOf (insertD [("a", 2)] "b") "b" = 1) ∧
    "b" ∈ keysOf (insertD [("a", 2)] "b") ∧
    (∀ y, y ∈ keysOf [("a", 2)] → y ∈ keysOf (List.foldl insertD [("a", 2)] ["c", "b"])) ∧
    (∀ y, countOf [("a", 2)] y ≤ countOf (List.foldl insertD [("a", 2)] ["c", "b"]) y) :=
  DomainMap_Insert_spec [("a", 2)] "b" "a" (by decide) ["c", "b"]

/-- Claim C5: the final registry depends only on the multiset of insertions:
for any two interleavings (permutations) of the same insertions performed on a
fresh registry, every domain's count — which equals the number of insertions
of that domain — and the key set agree. -/
theorem registry_order_independence (l₁ l₂ : List String) (h : l₁.Perm l₂)
    (d : String) :
    countOf (List.foldl insertD [] l₁) d = l₁.count d ∧
    countOf (List.foldl insertD [] l₁) d = countOf (List.foldl insertD [] l₂) d ∧
    (d ∈ keysOf (List.foldl insertD [] l₁) ↔ d ∈ keysOf (List.foldl insertD [] l₂)) := by
  have h1 : countOf (List.foldl insertD [] l₁) d = l₁.count d := by
    rw [countOf_foldl]; simp [countOf]
  have h2 : countOf (List.foldl insertD [] l₂) d = l₂.count d := by
    rw [countOf_foldl]; simp [countOf]
  refine ⟨h1, ?_, ?_⟩
  · rw [h1, h2]; exact h.count_eq d
  · rw [mem_keysOf_foldl, mem_keysOf_foldl]
    have hmem : (d ∈ l₁) ↔ (d ∈ l₂) := h.mem_iff
    simp [keysOf, hmem]

/-- Witness for C5 at two concrete interleavings of the same insertions. -/
theorem registry_order_independence_applied :
    countOf (List.foldl insertD [] ["a", "b", "a"]) "a" = ["a", "b", "a"].count "a" ∧
    countOf (List.foldl insertD [] ["a", "b", "a"]) "a"
      = countOf (List.foldl insertD [] ["b", "a", "a"]) "a" ∧
    ("a" ∈ keysOf (List.foldl insertD [] ["a", "b", "a"])
      ↔ "a" ∈ keysOf (List.foldl insertD [] ["b", "a", "a"])) :=
  registry_order_independence ["a", "b", "a"] ["b", "a", "a"]
    (List.Perm.swap "b" "a" ["a"]) "a"

/-- Claim C6 (code-bug evidence): `bufio.ReadLine` returns an oversized
line's remainder in later calls, with `isPrefix = false` on the final
fragment, so the `lineTooLong` branch of `processFile` skips only the leading
fragment(s): the excess is replayed and the final fragment is treated as a
valid line, and extraction IS run on that part of the oversized line.  Here a
single logical line of 55 characters under maximum length 30 contributes a
domain to the registry, refuting "no domain extraction is attempted on any
part of it and the data in excess of the limit is discarded without
replay". -/
theorem oversizedLine_tail_extracted :
    ("012345678901234567890123456789r1---sn-a.googlevideo.com".toList).length > 30 ∧
    readLineFragments 30
        ("012345678901234567890123456789r1---sn-a.googlevideo.com".toList)
      = [ReadResult.tooLong, ReadResult.line "r1---sn-a.googlevideo.com"] ∧
    processFileLoop
      (readLineFragments 30
        ("012345678901234567890123456789r1---sn-a.googlevideo.com".toList)
        ++ [ReadResult.eof])
      = ["r1---sn-a.googlevideo.com"] :=
  ⟨by decide, by decide, by decide⟩

/-- Claim C7 (code-bug evidence): the selection loop in `main` tests the
hard-coded literal "pihole.log" and never consults the configured file-name
filter; with the filter configured as "other.log", the code keeps
"pihole.log.1" and drops "other.log.1", the exact opposite of the
spec-described selection.  Directories are excluded by both. -/
theorem filesOfInterest_ignores_config :
    filesOfInterest
      [⟨"other.log.1", false⟩, ⟨"pihole.log.1", false⟩, ⟨"pihole.log.d", true⟩]
      = ["pihole.log.1"] ∧
    selectBySpec ⟨"/var/log/", "other.log", "out.txt", true⟩
      [⟨"other.log.1", false⟩, ⟨"pihole.log.1", false⟩, ⟨"pihole.log.d", true⟩]
      = ["other.log.1"] :=
  ⟨by decide, by decide⟩

/-- Claim C8 (counterexample): the scan result for a directory whose only file
fails — mid-stream read error, failed open, or failed gzip construction — is
identical to the result for a directory whose only file is empty: nothing in
the caller-visible result records the failure. -/
theorem scanResult_failure_unrecorded :
    scanModel [FileInput.content [ReadResult.err]]
      = scanModel [FileInput.content [ReadResult.eof]] ∧
    scanModel [FileInput.openFail] = scanModel [FileInput.content [ReadResult.eof]] ∧
    scanModel [FileInput.gzipFail] = scanModel [FileInput.content [ReadResult.eof]] :=
  ⟨rfl, rfl, rfl⟩

/-- Claim C8 (amended): no per-file failure summary is obtainable from the
scan's result: `processFile`'s error return value is discarded at the `go`
call site, and the result `main` derives (distinct-domain count and blocklist
string) is invariant under replacing every failure by a successful empty
outcome. -/
theorem scanResult_no_failure_record (fs : List FileInput) :
    scanModel (fs.map neutralizeFailure) = scanModel fs := by
  unfold scanModel
  rw [map_processFileModel_neutralize]

/-- Claim C9: for every registry state reachable by a scan (a fold of inserts
over the extracted domains), `DomainsToString` renders each distinct key of
the map exactly once — the key list is duplicate-free — each followed by a
single space, and contains no domain that was not inserted. -/
theorem DomainsToString_distinct_keys (l : List String) (d : String) :
    DomainsToString (List.foldl insertD [] l)
      = concatKeys (keysOf (List.foldl insertD [] l)) ∧
    (keysOf (List.foldl insertD [] l)).Nodup ∧
    (d ∈ keysOf (List.foldl insertD [] l) ↔ d ∈ l) := by
  refine ⟨DomainsToString_eq_concatKeys _, keysOf_foldl_nodup l [] (by simp [keysOf]), ?_⟩
  rw [mem_keysOf_foldl]
  simp [keysOf]

/-- Claim C10: `Domains` hands out the registry's underlying map reference
itself — every call returns the same reference `dm.m`, not a copy — so an
`Insert` performed after a `Domains` call is visible through the previously
returned reference, and writing through that reference mutates the registry's
own map. -/
theorem Domains_returns_underlying_map (st : Store) (dm : DomainMap) (d : String)
    (v : List (String × Nat)) :
    DomainMap.Domains dm = dm.m ∧
    readMap (DomainMap.Insert st dm d) (DomainMap.Domains dm)
      = insertD (readMap st (DomainMap.Domains dm)) d ∧
    readMap (writeMap st (DomainMap.Domains dm) v) dm.m = v := by
  refine ⟨rfl, ?_, ?_⟩
  · simp [DomainMap.Insert, DomainMap.Domains, readMap, writeMap]
  · simp [DomainMap.Domains, readMap, writeMap]
